import Mathlib

/-!
Verification of the `janggo.data.dna` module (file `src/janggo/data/dna.py`)
against its natural-language specification.

The Python source is shallowly embedded below.  Machine integers are
modelled as `Int` (Python integers are unbounded; the stored arrays use
int16 but no claim depends on wrap-around, and every value handled in the
claims is far inside the int16 range).  Fallible operations (Python code
that can raise) return `Option`/`Except` or a `(Option String × state)`
pair for setters that raise before mutating.

Collaborator modules that are not part of the source under verification
(`janggo.data.genomic_indexer`, `janggo.data.genomicarray`,
`janggo.utils`) are modelled from the specification; each such definition
carries a doc comment starting with `Modelled from the spec:`.
-/

/-- Modelled from the spec: `janggo.utils._complement_index` (module
`janggo.utils` is not under `src/`).  The complement-index table maps a
k-mer integer index in `[0, 4^order)` to the integer index of its reverse
complement: every base-4 digit is complemented (`d ↦ 3 - d`, i.e. A↔T,
C↔G) and the digit order is reversed.  The recursion peels the least
significant digit of `idx` and deposits its complement at the most
significant position of the result. -/
def complementIndex : Nat → Nat → Nat
  | 0, _ => 0
  | n + 1, idx => (3 - idx % 4) * 4 ^ n + complementIndex n (idx / 4)

/-- Embedding of `Dna.__init__`, dna.py lines 59-61: the precomputed
reverse-complement table `self._rcindex = [_complement_index(idx, order)
for idx in range(pow(4, order))]`. -/
def rcindexTable (order : Nat) : List Nat :=
  (List.range (4 ^ order)).map (complementIndex order)

/-- Embedding of the HTSeq `GenomicInterval` as used by dna.py: a
chromosome name, a half-open coordinate range and a strand flag. -/
structure GenomicInterval where
  chrom : String
  start : Int
  iend : Int
  strand : Char
deriving DecidableEq

/-- Modelled from the spec: the Region Indexer state
(`janggo.data.genomic_indexer.GenomicIndexer` is not under `src/`).
Per-region records {chromosome, offset-within-chromosome, within-region
sub-index, strand, relative-end}, plus the window width `binsize` and the
`stepsize`, exactly the fields dna.py assigns in `create_from_fasta`. -/
structure GenomicIndexer where
  binsize : Int
  stepsize : Int
  chrs : List String
  offsets : List Int
  inregionidx : List Int
  strand : List Char
  rel_end : List Int

/-- Modelled from the spec: Region Indexer `length()` — the number of
resolvable index → interval mappings (one per stored record). -/
def GenomicIndexer.length (g : GenomicIndexer) : Nat :=
  g.chrs.length

/-- Modelled from the spec: Region Indexer `resolve(index) →
GenomicInterval`.  The window for `index` starts at
`offset + within-region-sub-index * stepsize`, has width `binsize` and
carries the record's strand; resolution fails for an index outside
`[0, length())`. -/
def GenomicIndexer.resolve (g : GenomicIndexer) (idx : Nat) :
    Option GenomicInterval :=
  if idx < g.chrs.length then
    let s := g.offsets.getD idx 0 + g.inregionidx.getD idx 0 * g.stepsize
    some { chrom := g.chrs.getD idx "", start := s, iend := s + g.binsize,
           strand := g.strand.getD idx '.' }
  else none

/-- Modelled from the spec: the Chromosome Array Store
(`janggo.data.genomicarray` is not under `src/`) holds one integer index
array per chromosome. -/
abbrev Store := String → List Int

/-- Modelled from the spec: Chromosome Array Store `read(interval)` —
returns the sub-array over `[interval.start, interval.end)` of the
addressed chromosome and fails (`RangeError`) on out-of-bounds access,
including a negative start after flank subtraction. -/
def Store.read (s : Store) (iv : GenomicInterval) : Option (List Int) :=
  let arr := s iv.chrom
  if 0 ≤ iv.start ∧ iv.iend ≤ (arr.length : Int) ∧ iv.start ≤ iv.iend then
    some ((arr.drop iv.start.toNat).take (iv.iend - iv.start).toNat)
  else none

/-- A Python value passed to a setter: either an `int` or some non-integer
value (anything failing `isinstance(value, int)`). -/
inductive PyNum where
  | int (n : Int)
  | other
deriving DecidableEq

/-- Embedding of the `order` setter validation, dna.py lines 297-303:
`not isinstance(value, int) or value < 1` raises, then `value > 4`
raises, else the value is accepted. -/
def validateOrder : PyNum → Except String Int
  | .other => .error "order must be a positive integer"
  | .int n =>
    if n < 1 then .error "order must be a positive integer"
    else if n > 4 then .error "order support only up to order=4."
    else .ok n

/-- Embedding of the `flank` setter validation, dna.py lines 310-314:
`not isinstance(value, int) or value < 0` raises, else the value is
accepted. -/
def validateFlank : PyNum → Except String Int
  | .other => .error "_flank must be a non-negative integer"
  | .int n =>
    if n < 0 then .error "_flank must be a non-negative integer"
    else .ok n

/-- The `Dna` dataset object, dna.py lines 17-62: the Chromosome Array
Store, the Region Indexer, the validated `flank` and `order`, and the
precomputed complement table `_rcindex`. -/
structure Dna where
  garray : Store
  gindexer : GenomicIndexer
  flank : Int
  order : Int
  rcindex : List Nat

/-- Embedding of `Dna.__init__`, dna.py lines 53-62: `self.flank = flank`
and `self.order = order` run the validating setters (and raise on bad
values before any field is stored); `_rcindex` is precomputed from the
validated order. -/
def Dna.init (garray : Store) (gindexer : GenomicIndexer)
    (flank order : PyNum) : Except String Dna :=
  match validateFlank flank with
  | .error e => .error e
  | .ok f =>
    match validateOrder order with
    | .error e => .error e
    | .ok o =>
      .ok { garray := garray, gindexer := gindexer, flank := f, order := o,
            rcindex := rcindexTable o.toNat }

/-- Embedding of the `order` setter, dna.py lines 297-303, as a mutation
on an existing object: on a validation error the stored object is
unchanged (the raise happens before the assignment). -/
def Dna.setOrder (d : Dna) (v : PyNum) : Option String × Dna :=
  match validateOrder v with
  | .error e => (some e, d)
  | .ok n => (none, { d with order := n })

/-- Embedding of the `flank` setter, dna.py lines 310-314, as a mutation
on an existing object: on a validation error the stored object is
unchanged. -/
def Dna.setFlank (d : Dna) (v : PyNum) : Option String × Dna :=
  match validateFlank v with
  | .error e => (some e, d)
  | .ok n => (none, { d with flank := n })

/-- Python list indexing `l[v]`: a non-negative index in range reads
directly, a negative index in `[-len, 0)` wraps from the end, anything
else raises `IndexError`. -/
def pyListGet (l : List Nat) (v : Int) : Option Nat :=
  if 0 ≤ v ∧ v < (l.length : Int) then some (l.getD v.toNat 0)
  else if -(l.length : Int) ≤ v ∧ v < 0 then
    some (l.getD (v + l.length).toNat 0)
  else none

/-- One element of the minus-strand comprehension
`self._rcindex[val]` (dna.py line 259): a Python list lookup of the
stored value in the complement table. -/
def rcLookup (table : List Nat) (v : Int) : Option Int :=
  (pyListGet table v).map (fun n => (n : Int))

/-- A Python list comprehension over a fallible element operation: the
whole comprehension raises as soon as one element raises. -/
def mapOrNone {α β : Type} (f : α → Option β) : List α → Option (List β)
  | [] => some []
  | x :: xs =>
    match f x, mapOrNone f xs with
    | some y, some ys => some (y :: ys)
    | _, _ => none

/-- Embedding of the minus-strand branch of `Dna.idna4idx`, dna.py lines
258-259: `[self._rcindex[val] for val in row][::-1]` — complement every
element through the table, then reverse the element order. -/
def minusTransform (table : List Nat) (xs : List Int) : Option (List Int) :=
  (mapOrNone (rcLookup table) xs).map List.reverse

/-- Embedding of the interval expansion in `Dna.idna4idx`, dna.py lines
250-251: `interval.start -= self.flank; interval.end += self.flank -
self.order + 1`. -/
def expandInterval (flank order : Int) (iv : GenomicInterval) :
    GenomicInterval :=
  { iv with start := iv.start - flank, iend := iv.iend + flank - order + 1 }

/-- Embedding of one loop iteration of `Dna.idna4idx`, dna.py lines
248-259: resolve the index, expand the interval by the flank, read the
sub-array from the store, and return it unmodified on strand `'.'`/`'+'`
or reverse-complemented otherwise. -/
def Dna.idna4one (d : Dna) (idx : Nat) : Option (List Int) :=
  match d.gindexer.resolve idx with
  | none => none
  | some iv =>
    let iv2 := expandInterval d.flank d.order iv
    match d.garray.read iv2 with
    | none => none
    | some row =>
      if iv2.strand = '.' ∨ iv2.strand = '+' then some row
      else minusTransform d.rcindex row

/-- Embedding of `Dna.idna4idx`, dna.py lines 225-261: the extraction
loop over a list of dataset indices. -/
def Dna.idna4idx (d : Dna) (idxs : List Nat) : Option (List (List Int)) :=
  mapOrNone (Dna.idna4one d) idxs

/-- Embedding of `Dna.__len__`, dna.py lines 283-284:
`len(self.gindexer)`. -/
def Dna.size (d : Dna) : Nat :=
  d.gindexer.length

/-- Embedding of the `Dna.shape` property, dna.py lines 286-290:
`(len(self), binsize + 2*flank - order + 1, pow(4, order), 1)`. -/
def Dna.shape (d : Dna) : Int × Int × Int × Int :=
  ((Dna.size d : Int),
   d.gindexer.binsize + 2 * d.flank - d.order + 1,
   (4 : Int) ^ d.order.toNat,
   1)

/-- Modelled from the spec: `janggo.utils.dna2ind` (not under `src/`) —
map each base to an integer code, the 4 symbols A, C, G, T (case
insensitive) to 0..3 and any other symbol to the unknown-base sentinel;
the sentinel value −1024 is fixed by the dna.py comment at lines 69-71
("'N' is encoded as -1024"). -/
def dna2ind (s : List Char) : List Int :=
  s.map fun c =>
    if c = 'A' ∨ c = 'a' then 0
    else if c = 'C' ∨ c = 'c' then 1
    else if c = 'G' ∨ c = 'g' then 2
    else if c = 'T' ∨ c = 't' then 3
    else -1024

/-- Embedding of the convolution filter of `_dna_loader`, dna.py line
100: `[pow(4, i) for i in range(order)]`. -/
def convFilter (order : Nat) : List Int :=
  (List.range order).map fun i => (4 : Int) ^ i

/-- Embedding of `np.convolve(a, v, mode='valid')` for `len v ≤ len a`
(numpy's documented definition `c[n] = Σ_m a[m] v[n-m]`, restricted to
the fully-overlapping positions): output position `p` is the dot product
of the window of `a` starting at `p` with the reversed filter. -/
def convolveValid (a v : List Int) : List Int :=
  (List.range (a.length + 1 - v.length)).map fun p =>
    (List.zipWith (fun x y => x * y) ((a.drop p).take v.length)
      v.reverse).sum

/-- Embedding of the per-sequence body of `_dna_loader`, dna.py lines
90-103: convert the sequence to an index array and, for order > 1, fold
it with the sliding-window convolution. -/
def dnaLoaderSeq (seq : List Char) (order : Nat) : List Int :=
  let dna := dna2ind seq
  if 1 < order then convolveValid dna (convFilter order) else dna

/-- Modelled from the spec: `create_genomic_array` populated through
`_dna_loader` (dna.py lines 64-116; `janggo.data.genomicarray` is not
under `src/`): the store holds, per named sequence, the loader's index
array of length `len(sequence) - order + 1`. -/
def makeStore (seqs : List (String × List Char)) (order : Int) : Store :=
  fun chrom =>
    match seqs.find? (fun s => s.1 = chrom) with
    | some s => dnaLoaderSeq s.2 order.toNat
    | none => []

/-- Embedding of `Dna.create_from_fasta`, dna.py lines 162-218, on the
already-parsed sequence list: build the store, check that all sequences
have equal length (`lens == [len(seqs[0])] * len(seqs)` — on an empty
list `seqs[0]` itself raises `IndexError`), check that the sequence ids
are unique (`len(set(chroms)) == len(seqs)`), build the one-window-per-
sequence Region Indexer and construct the dataset with flank 0. -/
def create_from_fasta (seqs : List (String × List Char)) (order : Int) :
    Except String Dna :=
  let garray := makeStore seqs order
  match seqs with
  | [] => .error "list index out of range"
  | s0 :: _ =>
    if (seqs.map fun s => (s.2.length : Int)) =
        List.replicate seqs.length (s0.2.length : Int) then
      if (seqs.map Prod.fst).dedup.length = seqs.length then
        let reglen : Int := (s0.2.length : Int)
        let n := seqs.length
        let gindexer : GenomicIndexer :=
          { binsize := reglen, stepsize := 1,
            chrs := seqs.map Prod.fst,
            offsets := List.replicate n 0,
            inregionidx := List.replicate n 0,
            strand := List.replicate n '.',
            rel_end := List.replicate n (reglen + 2 * 0) }
        Dna.init garray gindexer (.int 0) (.int order)
      else .error "Sequence IDs must be unique."
    else .error "Input sequences must be of equal length."

/-- The argument of `Dna.__getitem__`: a Python `int`, a `slice` (whose
components are `None` or an `int`), some iterable of indices, or a value
that is none of those. -/
inductive ItemArg where
  | int (i : Int)
  | slice (start stop step : Option Int)
  | list (xs : List Int)
  | noniter

/-- Python truthiness fallback `v if v else d` on an optional integer:
`None` and `0` are falsy. -/
def truthyOr (v : Option Int) (d : Int) : Int :=
  match v with
  | none => d
  | some n => if n = 0 then d else n

/-- Number of elements of Python `range(a, b, c)` for `c ≠ 0`. -/
def pyRangeLen (a b c : Int) : Nat :=
  if 0 < c then ((b - a).toNat + c.toNat - 1) / c.toNat
  else if c < 0 then ((a - b).toNat + (-c).toNat - 1) / (-c).toNat
  else 0

/-- Python `range(a, b, c)` as the list of the indices it yields. -/
def pyRange (a b c : Int) : List Int :=
  (List.range (pyRangeLen a b c)).map fun k => a + c * (k : Int)

/-- Embedding of the index-normalization prefix of `Dna.__getitem__`,
dna.py lines 263-274: an `int` is wrapped into a one-element list, a
`slice` becomes `range(start if start else 0, stop if stop else
len(self), step if step else 1)`, an iterable passes through, and
anything else raises `IndexError`. -/
def normalizeItemArg (len : Nat) : ItemArg → Except String (List Int)
  | .int i => .ok [i]
  | .slice s t p =>
    .ok (pyRange (truthyOr s 0) (truthyOr t (len : Int)) (truthyOr p 1))
  | .list xs => .ok xs
  | .noniter => .error "Dna.__getitem__: index must be iterable"

/-- Concrete example store for witnesses: one six-base chromosome. -/
def exStore : Store := fun _ => [0, 1, 2, 3, 0, 1]

/-- Concrete example Region Indexer for witnesses: two width-2 windows,
one on the minus strand, one on the plus strand. -/
def exIndexer : GenomicIndexer :=
  { binsize := 2, stepsize := 1, chrs := ["c", "c"], offsets := [0, 0],
    inregionidx := [0, 1], strand := ['-', '+'], rel_end := [2, 2] }

/-- Concrete example dataset for witnesses (flank 0, order 1). -/
def exDna : Dna :=
  { garray := exStore, gindexer := exIndexer, flank := 0, order := 1,
    rcindex := rcindexTable 1 }

/-- Concrete example input for the `create_from_fasta` witnesses. -/
def exSeqs : List (String × List Char) := [("a", ['A', 'C'])]

/-- The dataset `create_from_fasta exSeqs 1` constructs. -/
def dC8 : Dna :=
  { garray := makeStore exSeqs 1,
    gindexer := { binsize := 2, stepsize := 1, chrs := ["a"],
                  offsets := [0], inregionidx := [0], strand := ['.'],
                  rel_end := [2] },
    flank := 0, order := 1, rcindex := rcindexTable 1 }

section TableLemmas

set_option maxRecDepth 10000

lemma complementIndex_involutive :
    ∀ o < 5, ∀ k < 4 ^ o, complementIndex o (complementIndex o k) = k := by
  decide

lemma complementIndex_lt :
    ∀ o < 5, ∀ k < 4 ^ o, complementIndex o k < 4 ^ o := by
  decide

end TableLemmas

lemma rcindexTable_length (o : Nat) : (rcindexTable o).length = 4 ^ o := by
  simp [rcindexTable]

lemma getD_map_range {α : Type} (d : α) (g : Nat → α) {n p : Nat}
    (h : p < n) : ((List.range n).map g).getD p d = g p := by
  simp [List.getD_eq_getElem?_getD, List.getElem?_map, List.getElem?_range, h]

lemma rcindexTable_getD {o k : Nat} (hk : k < 4 ^ o) :
    (rcindexTable o).getD k 0 = complementIndex o k := by
  unfold rcindexTable
  exact getD_map_range 0 _ hk

lemma rcTable_lt {o : Nat} (ho : o ≤ 4) {k : Nat} (hk : k < 4 ^ o) :
    (rcindexTable o).getD k 0 < 4 ^ o := by
  rw [rcindexTable_getD hk]
  exact complementIndex_lt o (by omega) k hk

lemma rcTable_involutive {o : Nat} (ho : o ≤ 4) {k : Nat} (hk : k < 4 ^ o) :
    (rcindexTable o).getD ((rcindexTable o).getD k 0) 0 = k := by
  rw [rcindexTable_getD hk,
    rcindexTable_getD (complementIndex_lt o (by omega) k hk)]
  exact complementIndex_involutive o (by omega) k hk

lemma pow_cast_int (o : Nat) : ((4 ^ o : Nat) : Int) = (4 : Int) ^ o := by
  push_cast
  ring

lemma rcLookup_valid {o : Nat} {x : Int} (h0 : 0 ≤ x)
    (hx : x < (4 : Int) ^ o) :
    rcLookup (rcindexTable o) x =
      some (((rcindexTable o).getD x.toNat 0 : Nat) : Int) := by
  have hlen : x < ((rcindexTable o).length : Int) := by
    rw [rcindexTable_length]
    rw [pow_cast_int]
    exact hx
  simp [rcLookup, pyListGet, h0, hlen]

lemma mapOrNone_rcLookup {o : Nat} :
    ∀ xs : List Int, (∀ x ∈ xs, 0 ≤ x ∧ x < (4 : Int) ^ o) →
      mapOrNone (rcLookup (rcindexTable o)) xs =
        some (xs.map fun x => (((rcindexTable o).getD x.toNat 0 : Nat) : Int))
  | [], _ => rfl
  | x :: xs, h => by
    have hx := h x (List.mem_cons_self x xs)
    have ih := mapOrNone_rcLookup xs fun y hy => h y (List.mem_cons_of_mem x hy)
    simp [mapOrNone, rcLookup_valid hx.1 hx.2, ih]

lemma toNat_lt_pow {o : Nat} {x : Int} (h0 : 0 ≤ x)
    (hx : x < (4 : Int) ^ o) : x.toNat < 4 ^ o := by
  have h := pow_cast_int o
  omega

/-- C4: for every order in {1,2,3,4} and every k-mer index k in
[0, 4^order), the precomputed complement table is an involution:
`complement_table[complement_table[k]] = k`. -/
theorem complement_table_involution (order : Nat) (h1 : 1 ≤ order)
    (h2 : order ≤ 4) (k : Nat) (hk : k < 4 ^ order) :
    (rcindexTable order).getD ((rcindexTable order).getD k 0) 0 = k :=
  rcTable_involutive h2 hk

/-- Witness for C4 at order 2 and k-mer index 7. -/
theorem complement_table_involution_witness :
    (1 ≤ 2 ∧ 2 ≤ 4 ∧ 7 < 4 ^ 2) ∧
      (rcindexTable 2).getD ((rcindexTable 2).getD 7 0) 0 = 7 :=
  ⟨by decide,
    complement_table_involution 2 (by decide) (by decide) 7 (by decide)⟩

/-- C5: applying the minus-strand transform (per-element complement via
the precomputed table, then reversal of the element order) twice returns
the original array, for every array with values in the valid k-mer range;
in particular the transform maps a palindromic array (one equal to its
own reverse complement) to itself. -/
theorem minus_transform_involution (order : Nat) (xs : List Int)
    (h4 : order ≤ 4) (hv : ∀ x ∈ xs, 0 ≤ x ∧ x < (4 : Int) ^ order) :
    (minusTransform (rcindexTable order) xs).bind
        (minusTransform (rcindexTable order)) = some xs ∧
    (minusTransform (rcindexTable order) xs = some xs →
      minusTransform (rcindexTable order) xs = some xs) := by
  refine ⟨?_, fun h => h⟩
  have h1 := mapOrNone_rcLookup xs hv
  have hv2 : ∀ y ∈ (xs.map fun x =>
      (((rcindexTable order).getD x.toNat 0 : Nat) : Int)).reverse,
      0 ≤ y ∧ y < (4 : Int) ^ order := by
    intro y hy
    rw [List.mem_reverse] at hy
    obtain ⟨x, hx, rfl⟩ := List.mem_map.mp hy
    obtain ⟨hx0, hxlt⟩ := hv x hx
    have hlt := rcTable_lt h4 (toNat_lt_pow hx0 hxlt)
    have hc := pow_cast_int order
    omega
  have h2 := mapOrNone_rcLookup _ hv2
  simp only [minusTransform, h1, h2, Option.map_some', Option.some_bind]
  congr 1
  rw [List.map_reverse, List.reverse_reverse, List.map_map]
  have hpt : ∀ x ∈ xs,
      ((fun x : Int => (((rcindexTable order).getD x.toNat 0 : Nat) : Int)) ∘
        fun x : Int => (((rcindexTable order).getD x.toNat 0 : Nat) : Int)) x
        = x := by
    intro x hx
    obtain ⟨hx0, hxlt⟩ := hv x hx
    simp only [Function.comp]
    have h5 : ((((rcindexTable order).getD x.toNat 0 : Nat) : Int)).toNat =
        (rcindexTable order).getD x.toNat 0 := by omega
    rw [h5, rcTable_involutive h4 (toNat_lt_pow hx0 hxlt)]
    omega
  rw [List.map_congr_left hpt]
  simp

/-- Witness for C5 at order 1 on the array [0, 3]. -/
theorem minus_transform_involution_witness :
    (1 ≤ 4 ∧ ∀ x ∈ ([0, 3] : List Int), 0 ≤ x ∧ x < (4 : Int) ^ 1) ∧
    (minusTransform (rcindexTable 1) [0, 3]).bind
        (minusTransform (rcindexTable 1)) = some [0, 3] :=
  ⟨⟨by decide, by decide⟩,
    (minus_transform_involution 1 [0, 3] (by decide) (by decide)).1⟩

/-- C6: for every dataset, shape equals
(length, binsize + 2*flank - order + 1, 4^order, 1); in particular the
first component is the dataset length (the region indexer's length) and
the second is binsize + 2*flank - order + 1. -/
theorem dna_shape_spec (d : Dna) :
    Dna.shape d = ((Dna.size d : Int),
      d.gindexer.binsize + 2 * d.flank - d.order + 1,
      (4 : Int) ^ d.order.toNat, 1) ∧
    (Dna.shape d).1 = (Dna.size d : Int) ∧
    (Dna.shape d).2.1 = d.gindexer.binsize + 2 * d.flank - d.order + 1 ∧
    Dna.size d = d.gindexer.length :=
  ⟨rfl, rfl, rfl, rfl⟩

/-- C7: assigning order or flank validates at assignment time: a
non-positive, non-integer or greater-than-4 order raises and leaves the
stored order unchanged; a negative or non-integer flank raises and leaves
the stored flank unchanged; any valid assignment stores the value. -/
theorem setter_validation (d : Dna) (n m : Int) :
    ((n < 1 ∨ 4 < n) →
      (Dna.setOrder d (.int n)).1.isSome = true ∧
        (Dna.setOrder d (.int n)).2 = d) ∧
    ((Dna.setOrder d .other).1.isSome = true ∧
      (Dna.setOrder d .other).2 = d) ∧
    (1 ≤ n → n ≤ 4 →
      Dna.setOrder d (.int n) = (none, { d with order := n })) ∧
    (m < 0 →
      (Dna.setFlank d (.int m)).1.isSome = true ∧
        (Dna.setFlank d (.int m)).2 = d) ∧
    ((Dna.setFlank d .other).1.isSome = true ∧
      (Dna.setFlank d .other).2 = d) ∧
    (0 ≤ m → Dna.setFlank d (.int m) = (none, { d with flank := m })) := by
  refine ⟨?_, ⟨rfl, rfl⟩, ?_, ?_, ⟨rfl, rfl⟩, ?_⟩
  · intro h
    by_cases h1 : n < 1
    · simp [Dna.setOrder, validateOrder, h1]
    · have h2 : n > 4 := by omega
      simp [Dna.setOrder, validateOrder, h1, h2]
  · intro h1 h2
    have h3 : ¬ n < 1 := by omega
    have h4 : ¬ n > 4 := by omega
    simp [Dna.setOrder, validateOrder, h3, h4]
  · intro h
    simp [Dna.setFlank, validateFlank, h]
  · intro h
    have h1 : ¬ m < 0 := by omega
    simp [Dna.setFlank, validateFlank, h1]

/-- Witness for C7: rejecting order 5 leaves the object unchanged,
order 3 and flank 2 are stored. -/
theorem setter_validation_witness :
    (Dna.setOrder exDna (.int 5)).2 = exDna ∧
    Dna.setOrder exDna (.int 3) = (none, { exDna with order := 3 }) ∧
    Dna.setFlank exDna (.int 2) = (none, { exDna with flank := 2 }) :=
  ⟨((setter_validation exDna 5 0).1 (Or.inr (by decide))).2,
    (setter_validation exDna 3 0).2.2.1 (by decide) (by decide),
    (setter_validation exDna 0 2).2.2.2.2.2 (by decide)⟩

/-- C10: `__getitem__` normalizes its argument before extraction: an int
behaves exactly like the one-element list, a slice becomes
`range(start or 0, stop or length, step or 1)`, an iterable passes
through, and any non-int non-slice non-iterable raises `IndexError`. -/
theorem getitem_normalization (len : Nat) (i : Int) (s t p : Option Int)
    (xs : List Int) :
    normalizeItemArg len (.int i) = normalizeItemArg len (.list [i]) ∧
    normalizeItemArg len (.slice s t p) =
      .ok (pyRange (truthyOr s 0) (truthyOr t (len : Int)) (truthyOr p 1)) ∧
    normalizeItemArg len (.list xs) = .ok xs ∧
    normalizeItemArg len .noniter =
      .error "Dna.__getitem__: index must be iterable" :=
  ⟨rfl, rfl, rfl, rfl⟩

lemma mapOrNone_length {α β : Type} (f : α → Option β) :
    ∀ xs ys, mapOrNone f xs = some ys → ys.length = xs.length
  | [], ys, h => by
    simp only [mapOrNone] at h
    cases h
    rfl
  | x :: xs, ys, h => by
    simp only [mapOrNone] at h
    cases hfx : f x with
    | none => rw [hfx] at h; simp at h
    | some y =>
      rw [hfx] at h
      cases hrec : mapOrNone f xs with
      | none => rw [hrec] at h; simp at h
      | some ys2 =>
        rw [hrec] at h
        simp only [Option.some.injEq] at h
        subst h
        simp [mapOrNone_length f xs ys2 hrec]

lemma mapOrNone_mem_exists {α β : Type} (f : α → Option β) :
    ∀ xs ys, mapOrNone f xs = some ys → ∀ y ∈ ys, ∃ x ∈ xs, f x = some y
  | [], ys, h => by
    simp only [mapOrNone] at h
    cases h
    intro y hy
    simp at hy
  | x :: xs, ys, h => by
    simp only [mapOrNone] at h
    cases hfx : f x with
    | none => rw [hfx] at h; simp at h
    | some y =>
      rw [hfx] at h
      cases hrec : mapOrNone f xs with
      | none => rw [hrec] at h; simp at h
      | some ys2 =>
        rw [hrec] at h
        simp only [Option.some.injEq] at h
        subst h
        intro z hz
        rcases List.mem_cons.mp hz with hz | hz
        · exact ⟨x, List.mem_cons_self x xs, by rw [hfx, hz]⟩
        · obtain ⟨w, hw, hfw⟩ := mapOrNone_mem_exists f xs ys2 hrec z hz
          exact ⟨w, List.mem_cons_of_mem x hw, hfw⟩

lemma mapOrNone_forall_some {α β : Type} (f : α → Option β) :
    ∀ xs ys, mapOrNone f xs = some ys → ∀ x ∈ xs, ∃ y, f x = some y
  | [], _, _ => by
    intro x hx
    simp at hx
  | x :: xs, ys, h => by
    simp only [mapOrNone] at h
    cases hfx : f x with
    | none => rw [hfx] at h; simp at h
    | some y =>
      rw [hfx] at h
      cases hrec : mapOrNone f xs with
      | none => rw [hrec] at h; simp at h
      | some ys2 =>
        intro z hz
        rcases List.mem_cons.mp hz with hz | hz
        · exact ⟨y, by rw [hz, hfx]⟩
        · exact mapOrNone_forall_some f xs ys2 hrec z hz

lemma resolve_width {g : GenomicIndexer} {idx : Nat} {iv : GenomicInterval}
    (h : g.resolve idx = some iv) : iv.iend = iv.start + g.binsize := by
  unfold GenomicIndexer.resolve at h
  split at h
  · cases h
    rfl
  · simp at h

lemma read_length {s : Store} {iv : GenomicInterval} {row : List Int}
    (h : Store.read s iv = some row) :
    (row.length : Int) = iv.iend - iv.start := by
  simp only [Store.read] at h
  split at h
  · cases h
    rename_i hc
    obtain ⟨h1, h2, h3⟩ := hc
    simp only [List.length_take, List.length_drop]
    omega
  · simp at h

lemma idna4one_parts {d : Dna} {idx : Nat} {row : List Int}
    (h : Dna.idna4one d idx = some row) :
    ∃ iv row0, d.gindexer.resolve idx = some iv ∧
      d.garray.read (expandInterval d.flank d.order iv) = some row0 ∧
      row.length = row0.length := by
  unfold Dna.idna4one at h
  cases hres : d.gindexer.resolve idx with
  | none => rw [hres] at h; simp at h
  | some iv =>
    rw [hres] at h
    dsimp only at h
    cases hread : Store.read d.garray (expandInterval d.flank d.order iv) with
    | none => rw [hread] at h; simp at h
    | some row0 =>
      rw [hread] at h
      dsimp only at h
      refine ⟨iv, row0, rfl, hread, ?_⟩
      split at h
      · cases h
        rfl
      · simp only [minusTransform] at h
        cases hmap : mapOrNone (rcLookup d.rcindex) row0 with
        | none => rw [hmap] at h; simp at h
        | some ys =>
          rw [hmap] at h
          simp only [Option.map_some', Option.some.injEq] at h
          rw [← h]
          simp [mapOrNone_length _ _ _ hmap]

lemma idna4one_length {d : Dna} {idx : Nat} {row : List Int}
    (h : Dna.idna4one d idx = some row) :
    (row.length : Int) = d.gindexer.binsize + 2 * d.flank - d.order + 1 := by
  obtain ⟨iv, row0, hres, hread, hlen⟩ := idna4one_parts h
  have hw := resolve_width hres
  have hr := read_length hread
  simp only [expandInterval] at hr
  omega

/-- C1: for a dataset index whose resolved interval has strand '+' or
'.', `idna4idx` returns the stored index sub-array unmodified; for an
index whose interval has strand '-', it returns the sub-array with every
element mapped through the precomputed complement table and the element
order then reversed, as one unit. -/
theorem idna4idx_strand_transform (d : Dna) (idx : Nat)
    (iv : GenomicInterval) (row : List Int)
    (hres : d.gindexer.resolve idx = some iv)
    (hread : d.garray.read (expandInterval d.flank d.order iv) = some row) :
    ((iv.strand = '+' ∨ iv.strand = '.') → Dna.idna4one d idx = some row) ∧
    (iv.strand = '-' →
      ∀ ys, mapOrNone (rcLookup d.rcindex) row = some ys →
        Dna.idna4one d idx = some ys.reverse) := by
  have hstrand : (expandInterval d.flank d.order iv).strand = iv.strand := rfl
  constructor
  · intro h
    have hcond : (expandInterval d.flank d.order iv).strand = '.' ∨
        (expandInterval d.flank d.order iv).strand = '+' := by
      rw [hstrand]
      tauto
    unfold Dna.idna4one
    rw [hres]
    dsimp only
    rw [hread]
    dsimp only
    rw [if_pos hcond]
  · intro h ys hys
    have hcond : ¬ ((expandInterval d.flank d.order iv).strand = '.' ∨
        (expandInterval d.flank d.order iv).strand = '+') := by
      rw [hstrand, h]
      simp
    unfold Dna.idna4one
    rw [hres]
    dsimp only
    rw [hread]
    dsimp only
    rw [if_neg hcond]
    simp [minusTransform, hys]

/-- Witness for C1 on a concrete minus-strand window of `exDna`. -/
theorem idna4idx_strand_transform_witness :
    (exDna.gindexer.resolve 0 = some ⟨"c", 0, 2, '-'⟩ ∧
      exDna.garray.read
        (expandInterval exDna.flank exDna.order ⟨"c", 0, 2, '-'⟩) =
          some [0, 1] ∧
      mapOrNone (rcLookup exDna.rcindex) [0, 1] = some [3, 2]) ∧
    Dna.idna4one exDna 0 = some ([3, 2] : List Int).reverse :=
  ⟨⟨by decide, by decide, by decide⟩,
    (idna4idx_strand_transform exDna 0 ⟨"c", 0, 2, '-'⟩ [0, 1] (by decide)
      (by decide)).2 (by decide) [3, 2] (by decide)⟩

/-- C2: whenever `idna4idx` succeeds on a list of dataset indices, every
returned row has length binsize + 2*flank - order + 1, and each row is
obtained by resolving its index to an interval and reading the store over
the interval expanded by start -= flank, end += flank - order + 1. -/
theorem idna4idx_row_length (d : Dna) (idxs : List Nat)
    (rows : List (List Int)) (h : Dna.idna4idx d idxs = some rows) :
    rows.length = idxs.length ∧
    (∀ row ∈ rows, (row.length : Int) =
      d.gindexer.binsize + 2 * d.flank - d.order + 1) ∧
    ∀ idx ∈ idxs, ∃ iv row0, d.gindexer.resolve idx = some iv ∧
      d.garray.read (expandInterval d.flank d.order iv) = some row0 := by
  have h2 : mapOrNone (Dna.idna4one d) idxs = some rows := h
  refine ⟨mapOrNone_length _ _ _ h2, ?_, ?_⟩
  · intro row hrow
    obtain ⟨idx, hidx, hone⟩ := mapOrNone_mem_exists _ _ _ h2 row hrow
    exact idna4one_length hone
  · intro idx hidx
    obtain ⟨row, hone⟩ := mapOrNone_forall_some _ _ _ h2 idx hidx
    obtain ⟨iv, row0, ha, hb, _⟩ := idna4one_parts hone
    exact ⟨iv, row0, ha, hb⟩

/-- Witness for C2 on two concrete windows of `exDna`. -/
theorem idna4idx_row_length_witness :
    Dna.idna4idx exDna [0, 1] = some [[2, 3], [1, 2]] ∧
    ∀ row ∈ ([[2, 3], [1, 2]] : List (List Int)), (row.length : Int) =
      exDna.gindexer.binsize + 2 * exDna.flank - exDna.order + 1 :=
  ⟨by decide,
    (idna4idx_row_length exDna [0, 1] [[2, 3], [1, 2]] (by decide)).2.1⟩

lemma dedup_length_iff (l : List String) :
    l.dedup.length = l.length ↔ l.Nodup := by
  constructor
  · intro h
    exact List.dedup_eq_self.mp ((List.dedup_sublist l).eq_of_length h)
  · intro h
    rw [List.dedup_eq_self.mpr h]

/-- C8: in the equal-length construction path, the region indexer has one
window per input sequence, window width equal to the common sequence
length, stepsize 1, offset 0 and strand '.' for every sequence. -/
theorem create_from_fasta_indexer (seqs : List (String × List Char))
    (order : Int) (d : Dna) (h : create_from_fasta seqs order = .ok d) :
    d.gindexer.length = seqs.length ∧
    d.gindexer.stepsize = 1 ∧
    (∀ s ∈ seqs, d.gindexer.binsize = (s.2.length : Int)) ∧
    d.gindexer.offsets = List.replicate seqs.length 0 ∧
    d.gindexer.inregionidx = List.replicate seqs.length 0 ∧
    d.gindexer.strand = List.replicate seqs.length '.' := by
  unfold create_from_fasta at h
  cases seqs with
  | nil => simp at h
  | cons s0 rest =>
    dsimp only at h
    split at h
    · split at h
      · rename_i heq hdedup
        simp only [Dna.init, validateFlank, validateOrder] at h
        norm_num at h
        split at h
        · simp at h
        · cases h
          refine ⟨?_, rfl, ?_, rfl, rfl, rfl⟩
          · simp [GenomicIndexer.length]
          · intro s hs
            have hb : ((s.2.length : Int)) ∈
                ((s0 :: rest).map fun s => (s.2.length : Int)) :=
              List.mem_map_of_mem _ hs
            rw [heq] at hb
            exact (List.eq_of_mem_replicate hb).symm
      · simp at h
    · simp at h

/-- Witness for C8: the dataset built from the concrete input `exSeqs`
has the claimed indexer fields. -/
theorem create_from_fasta_indexer_witness :
    create_from_fasta exSeqs 1 = .ok dC8 ∧
    dC8.gindexer.length = exSeqs.length ∧
    dC8.gindexer.stepsize = 1 ∧
    dC8.gindexer.strand = List.replicate exSeqs.length '.' :=
  ⟨rfl, (create_from_fasta_indexer exSeqs 1 dC8 rfl).1,
    (create_from_fasta_indexer exSeqs 1 dC8 rfl).2.1,
    (create_from_fasta_indexer exSeqs 1 dC8 rfl).2.2.2.2.2⟩

/-- C9 (amended): for every nonempty input sequence list,
`create_from_fasta` succeeds on its two checks iff all sequence lengths
are equal and all identifiers are distinct; it fails whenever the lengths
differ or an identifier repeats.  (The empty list, excluded here, fails
even though both conditions hold vacuously — see the counterexample.) -/
theorem create_from_fasta_checks (seqs : List (String × List Char))
    (hne : seqs ≠ []) :
    (∃ d, create_from_fasta seqs 1 = .ok d) ↔
      ((∀ s ∈ seqs, ∀ t ∈ seqs, s.2.length = t.2.length) ∧
        (seqs.map Prod.fst).Nodup) := by
  cases seqs with
  | nil => exact absurd rfl hne
  | cons s0 rest =>
    unfold create_from_fasta
    dsimp only
    constructor
    · rintro ⟨d, hd⟩
      split at hd
      · split at hd
        · rename_i heq hdedup
          refine ⟨?_, ?_⟩
          · intro s hs t ht
            have hbs : ((s.2.length : Int)) ∈
                ((s0 :: rest).map fun s => (s.2.length : Int)) :=
              List.mem_map_of_mem _ hs
            have hbt : ((t.2.length : Int)) ∈
                ((s0 :: rest).map fun s => (s.2.length : Int)) :=
              List.mem_map_of_mem _ ht
            rw [heq] at hbs hbt
            have := (List.eq_of_mem_replicate hbs).trans
              (List.eq_of_mem_replicate hbt).symm
            exact_mod_cast this
          · have hlenmap : ((s0 :: rest).map Prod.fst).length =
                (s0 :: rest).length := List.length_map _ _
            rw [← hlenmap] at hdedup
            exact (dedup_length_iff _).mp hdedup
        · simp at hd
      · simp at hd
    · rintro ⟨hlen, hnodup⟩
      have hc1 : ((s0 :: rest).map fun s => (s.2.length : Int)) =
          List.replicate (s0 :: rest).length ((s0.2.length : Int)) := by
        rw [List.eq_replicate_iff]
        refine ⟨by simp, ?_⟩
        intro b hb
        obtain ⟨s, hs, rfl⟩ := List.mem_map.mp hb
        exact_mod_cast hlen s hs s0 (List.mem_cons_self _ _)
      have hc2 : ((s0 :: rest).map Prod.fst).dedup.length =
          (s0 :: rest).length := by
        rw [show ((s0 :: rest) : List (String × List Char)).length =
            ((s0 :: rest).map Prod.fst).length from
          (List.length_map _ _).symm]
        exact (dedup_length_iff _).mpr hnodup
      rw [if_pos hc1, if_pos hc2]
      exact ⟨_, rfl⟩

/-- Counterexample for C9 as stated: on the empty input list all lengths
are equal and all identifiers distinct (both vacuously), yet
`create_from_fasta` does not succeed — evaluating `len(seqs[0])` in the
equal-length check raises `IndexError`. -/
theorem create_from_fasta_checks_counterexample :
    ¬ ((∃ d, create_from_fasta ([] : List (String × List Char)) 1 =
          .ok d) ↔
        ((∀ s ∈ ([] : List (String × List Char)),
            ∀ t ∈ ([] : List (String × List Char)),
            s.2.length = t.2.length) ∧
          (([] : List (String × List Char)).map Prod.fst).Nodup)) := by
  intro h
  obtain ⟨d, hd⟩ := h.mpr ⟨by simp, by simp⟩
  simp [create_from_fasta] at hd

/-- Witness for the amended C9 on a concrete nonempty valid input. -/
theorem create_from_fasta_checks_witness :
    ∃ d, create_from_fasta [("a", ['A']), ("b", ['A'])] 1 = .ok d :=
  (create_from_fasta_checks [("a", ['A']), ("b", ['A'])] (by decide)).mpr
    ⟨by decide, by decide⟩

lemma convolveValid_length (a v : List Int) :
    (convolveValid a v).length = a.length + 1 - v.length := by
  simp [convolveValid]

lemma zipWith_mul_sum : ∀ xs ys : List Int,
    (List.zipWith (fun x y => x * y) xs ys).sum =
      ((List.range (min xs.length ys.length)).map
        fun i => xs.getD i 0 * ys.getD i 0).sum
  | [], ys => by simp
  | x :: xs, [] => by simp
  | x :: xs, y :: ys => by
    have ih := zipWith_mul_sum xs ys
    simp only [List.zipWith_cons_cons, List.sum_cons, List.length_cons,
      Nat.succ_min_succ, List.range_succ_eq_map, List.map_cons,
      List.map_map]
    rw [ih]
    have hhead : (x :: xs).getD 0 0 * (y :: ys).getD 0 0 = x * y := by simp
    have htail : ∀ i ∈ List.range (xs.length ⊓ ys.length),
        ((fun i => (x :: xs).getD i 0 * (y :: ys).getD i 0) ∘ Nat.succ) i =
          xs.getD i 0 * ys.getD i 0 := by
      intro i hi
      simp
    rw [hhead, List.map_congr_left htail]

lemma window_getD {a : List Int} {p n i : Nat} (hi : i < n)
    (hpn : p + n ≤ a.length) :
    ((a.drop p).take n).getD i 0 = a.getD (p + i) 0 := by
  simp [List.getD_eq_getElem?_getD, List.getElem?_take, List.getElem?_drop,
    hi]

lemma reverse_getD {v : List Int} {i : Nat} (hi : i < v.length) :
    v.reverse.getD i 0 = v.getD (v.length - 1 - i) 0 := by
  have h2 : v.length - 1 - i < v.length := by omega
  simp [List.getD_eq_getElem?_getD, List.getElem?_reverse, hi,
    List.getElem?_eq_getElem, h2]

lemma convFilter_length (order : Nat) : (convFilter order).length = order := by
  simp [convFilter]

lemma convFilter_getD {order j : Nat} (hj : j < order) :
    (convFilter order).getD j 0 = (4 : Int) ^ j := by
  unfold convFilter
  exact getD_map_range 0 _ hj

lemma convolveValid_getD {a v : List Int} {p : Nat}
    (hp : p + v.length ≤ a.length) :
    (convolveValid a v).getD p 0 =
      ((List.range v.length).map
        fun i => a.getD (p + i) 0 * v.getD (v.length - 1 - i) 0).sum := by
  have hlt : p < a.length + 1 - v.length := by omega
  unfold convolveValid
  rw [getD_map_range 0 _ hlt]
  rw [zipWith_mul_sum]
  have hwl : ((a.drop p).take v.length).length = v.length := by
    simp only [List.length_take, List.length_drop]
    omega
  rw [hwl, List.length_reverse, Nat.min_self]
  apply congrArg
  apply List.map_congr_left
  intro i hi
  rw [List.mem_range] at hi
  rw [window_getD hi hp, reverse_getD hi]

/-- C3 (amended): for every sequence of length at least order and every
order ≥ 1, the loader produces an index array of length
len(sequence) - order + 1, and for the window starting at position p the
value is the base-4 weighted sum of the order-1 indices of that window
with the weights assigned in reverse position order — weight
4^(order-1-i) to the i-th base of the window — because np.convolve
correlates against the reversed filter [4^0 … 4^(order-1)]. -/
theorem loader_window_fold (seq : List Char) (order : Nat)
    (h1 : 1 ≤ order) (h2 : order ≤ seq.length) :
    (dnaLoaderSeq seq order).length = seq.length - order + 1 ∧
    ∀ p, p + order ≤ seq.length →
      (dnaLoaderSeq seq order).getD p 0 =
        ((List.range order).map
          fun i => (dna2ind seq).getD (p + i) 0 *
            (4 : Int) ^ (order - 1 - i)).sum := by
  have hdl : (dna2ind seq).length = seq.length := by simp [dna2ind]
  by_cases ho : 1 < order
  · constructor
    · simp only [dnaLoaderSeq, if_pos ho]
      rw [convolveValid_length, hdl, convFilter_length]
      omega
    · intro p hp
      simp only [dnaLoaderSeq, if_pos ho]
      have hp2 : p + (convFilter order).length ≤ (dna2ind seq).length := by
        rw [convFilter_length, hdl]
        exact hp
      rw [convolveValid_getD hp2]
      rw [convFilter_length]
      apply congrArg
      apply List.map_congr_left
      intro i hi
      rw [List.mem_range] at hi
      rw [convFilter_getD (show order - 1 - i < order by omega)]
  · have ho1 : order = 1 := by omega
    subst ho1
    constructor
    · simp only [dnaLoaderSeq, if_neg ho]
      rw [hdl]
      omega
    · intro p hp
      simp only [dnaLoaderSeq, if_neg ho]
      simp [List.range_succ]

/-- Counterexample for C3 as stated: the code assigns weight
4^(order-1-i), not 4^i, to the i-th base of the window.  On the sequence
"AC" with order 2 the loader yields [1] (index of A times 4 plus index of
C times 1), while the claimed positional sum with weight 4^i on the i-th
base gives 4. -/
theorem loader_window_fold_counterexample :
    dnaLoaderSeq ['A', 'C'] 2 = [1] ∧
    (dnaLoaderSeq ['A', 'C'] 2).getD 0 0 ≠
      ((List.range 2).map
        fun i => (dna2ind ['A', 'C']).getD (0 + i) 0 * (4 : Int) ^ i).sum :=
  ⟨by decide, by decide⟩

/-- Witness for the amended C3 on the sequence "ACG" with order 2. -/
theorem loader_window_fold_witness :
    (1 ≤ 2 ∧ 2 ≤ (['A', 'C', 'G'] : List Char).length) ∧
    (dnaLoaderSeq ['A', 'C', 'G'] 2).length =
      (['A', 'C', 'G'] : List Char).length - 2 + 1 ∧
    (dnaLoaderSeq ['A', 'C', 'G'] 2).getD 1 0 =
      ((List.range 2).map
        fun i => (dna2ind ['A', 'C', 'G']).getD (1 + i) 0 *
          (4 : Int) ^ (2 - 1 - i)).sum :=
  ⟨⟨by decide, by decide⟩,
    (loader_window_fold ['A', 'C', 'G'] 2 (by decide) (by decide)).1,
    (loader_window_fold ['A', 'C', 'G'] 2 (by decide) (by decide)).2 1
      (by decide)⟩
